import Mathlib

/-!
Verification of the sparse adjacency-matrix vessel of this repository
(file src/adjmat/AdjacencyMatrixVessel.cpp).

The embedding below translates the C++ member functions of
AdjacencyMatrixVessel into Lean definitions.  Machine unsigned integers
are modelled by natural numbers; the C++ double expressions of the form
0.5*k*(k-1) (evaluated in floating point and then converted back to an
unsigned integer on return) are modelled exactly by rational arithmetic
followed by the floor conversion, which agrees with the double
computation throughout the representable range.

Parts of the program that live outside the provided sources (the
StoreDataVessel base class and the task decoder of AdjacencyMatrixBase)
are modelled abstractly, as stated in the doc comments of the
corresponding fields.
-/

namespace PlumedAdjmat

/-- Configuration state of an AdjacencyMatrixVessel: the parsed NROWS and
NCOLS keywords, the SYMMETRIC and HBONDS flags, and the node count
reported by the owning action (function->getNumberOfNodes()). -/
structure AdjacencyMatrixVessel where
  nrows : ℕ
  ncols : ℕ
  symmetric : Bool
  hbonds : Bool
  nnodes : ℕ

/-- Constructor checks of AdjacencyMatrixVessel: the configuration is
rejected when both SYMMETRIC and HBONDS are set, or when either flag is
set while nrows differs from ncols. -/
def validConfig (v : AdjacencyMatrixVessel) : Bool :=
  !(v.symmetric && v.hbonds) && (!v.symmetric || v.nrows == v.ncols) &&
    (!v.hbonds || v.nrows == v.ncols)

/-- Member isSymmetric of AdjacencyMatrixVessel. -/
def isSymmetric (v : AdjacencyMatrixVessel) : Bool := v.symmetric

/-- Member undirectedGraph of AdjacencyMatrixVessel: symmetric or hbonds. -/
def undirectedGraph (v : AdjacencyMatrixVessel) : Bool := v.symmetric || v.hbonds

/-- The double expression 0.5*k*(k-1) appearing in getNumberOfStoredValues
and getStoreIndexFromMatrixIndices, modelled by exact rationals.  The
subtraction k-1 happens on unsigned integers, hence the truncated natural
subtraction inside the cast. -/
def halfProd (k : ℕ) : ℚ := (1 / 2 : ℚ) * (k : ℚ) * ((k - 1 : ℕ) : ℚ)

/-- Member getNumberOfStoredValues: 0.5*nnodes*(nnodes-1) in symmetric
mode (a double, implicitly converted back to unsigned on return, hence
the floor), and nrows*ncols otherwise. -/
def getNumberOfStoredValues (v : AdjacencyMatrixVessel) : ℕ :=
  if v.symmetric then (⌊halfProd v.nnodes⌋).toNat else v.nrows * v.ncols

/-- Member getStoreIndexFromMatrixIndices: nrows*ielem+jelem when the
matrix is not symmetric, and otherwise the triangular index
0.5*m*(m-1)+l with m the larger and l the smaller coordinate, again a
double converted back to unsigned on return. -/
def getStoreIndexFromMatrixIndices (v : AdjacencyMatrixVessel) (ielem jelem : ℕ) : ℕ :=
  if !v.symmetric then v.nrows * ielem + jelem
  else if ielem > jelem then (⌊halfProd ielem + (jelem : ℚ)⌋).toNat
  else (⌊halfProd jelem + (ielem : ℚ)⌋).toNat

/-- Member getStoreIndex: decodes the task into matrix indices and returns
getStoreIndexFromMatrixIndices on them.  The two statements that follow
the first return statement in the C++ body are kept in the embedding as
the later alternatives of an early-return chain, so that their
unreachability is a provable fact rather than a modelling choice.  The
decoder argument stands for getMatrixIndices, which delegates to the
external task decoder. -/
def getStoreIndex (v : AdjacencyMatrixVessel) (decode : ℕ → ℕ × ℕ) (myelem : ℕ) : ℕ :=
  let ielem := (decode myelem).1
  let jelem := (decode myelem).2
  let body : Option ℕ :=
    some (getStoreIndexFromMatrixIndices v ielem jelem) <|>
      (if v.symmetric then some ((⌊halfProd ielem + (jelem : ℚ)⌋).toNat) else none) <|>
        some (v.nrows * ielem + jelem)
  body.getD 0

/-- Triangular number k*(k-1)/2 on natural numbers, the exact value of the
double expression 0.5*k*(k-1). -/
def tri (k : ℕ) : ℕ := k * (k - 1) / 2

lemma two_dvd_mul_pred (k : ℕ) : 2 ∣ k * (k - 1) := by
  rcases Nat.even_or_odd k with h | h
  · exact Dvd.dvd.mul_right h.two_dvd _
  · have h1 : Even (k - 1) := Nat.Odd.sub_odd h odd_one
    exact Dvd.dvd.mul_left h1.two_dvd _

lemma halfProd_eq (k : ℕ) : halfProd k = (tri k : ℚ) := by
  have h2 : 2 * tri k = k * (k - 1) := Nat.mul_div_cancel' (two_dvd_mul_pred k)
  have : ((k : ℚ) * ((k - 1 : ℕ) : ℚ)) = ((k * (k - 1) : ℕ) : ℚ) := by
    rw [Nat.cast_mul]
  unfold halfProd
  rw [mul_assoc, this, ← h2]
  push_cast
  ring

lemma floor_halfProd_add (k j : ℕ) : (⌊halfProd k + (j : ℚ)⌋).toNat = tri k + j := by
  rw [halfProd_eq]
  have : ((tri k : ℚ) + (j : ℚ)) = ((tri k + j : ℕ) : ℚ) := by push_cast; ring
  rw [this, Int.floor_natCast]
  omega

lemma floor_halfProd (k : ℕ) : (⌊halfProd k⌋).toNat = tri k := by
  have h := floor_halfProd_add k 0
  have h0 : halfProd k + ((0 : ℕ) : ℚ) = halfProd k := by push_cast; ring
  rw [h0] at h
  simpa using h

lemma getNumberOfStoredValues_eq (v : AdjacencyMatrixVessel) :
    getNumberOfStoredValues v =
      if v.symmetric then tri v.nnodes else v.nrows * v.ncols := by
  unfold getNumberOfStoredValues
  by_cases h : v.symmetric <;> simp [h, floor_halfProd]

lemma getStoreIndexFromMatrixIndices_eq (v : AdjacencyMatrixVessel) (i j : ℕ) :
    getStoreIndexFromMatrixIndices v i j =
      if !v.symmetric then v.nrows * i + j
      else if i > j then tri i + j else tri j + i := by
  unfold getStoreIndexFromMatrixIndices
  by_cases h : v.symmetric
  · rw [h]
    simp only [Bool.not_true, Bool.false_eq_true, if_false]
    by_cases hij : i > j
    · rw [if_pos hij, if_pos hij, floor_halfProd_add]
    · rw [if_neg hij, if_neg hij, floor_halfProd_add]
  · simp [h]

lemma tri_succ (k : ℕ) : tri (k + 1) = tri k + k := by
  have hid : (k + 1) * k = k * (k - 1) + 2 * k := by
    cases k with
    | zero => rfl
    | succ m => rw [Nat.add_sub_cancel]; ring
  unfold tri
  rw [Nat.add_sub_cancel, hid, Nat.add_mul_div_left _ _ (by norm_num : (0:ℕ) < 2)]

lemma tri_mono : Monotone tri := by
  intro a b h
  exact Nat.div_le_div_right (Nat.mul_le_mul h (Nat.sub_le_sub_right h 1))

lemma tri_add_lt {i j n : ℕ} (hij : i < j) (hjn : j < n) : tri j + i < tri n := by
  have h1 : tri j + i < tri (j + 1) := by rw [tri_succ]; omega
  have h2 : tri (j + 1) ≤ tri n := tri_mono hjn
  omega

lemma tri_add_inj {i j k l : ℕ} (hij : i < j) (hkl : k < l)
    (h : tri j + i = tri l + k) : j = l ∧ i = k := by
  rcases lt_trichotomy j l with hjl | hjl | hjl
  · exfalso
    have h1 : tri j + i < tri (j + 1) := by rw [tri_succ]; omega
    have h2 : tri (j + 1) ≤ tri l := tri_mono hjl
    omega
  · subst hjl
    omega
  · exfalso
    have h1 : tri l + k < tri (l + 1) := by rw [tri_succ]; omega
    have h2 : tri (l + 1) ≤ tri j := tri_mono hjl
    omega

lemma tri_surj : ∀ n m : ℕ, m < tri n → ∃ i j, i < j ∧ j < n ∧ tri j + i = m := by
  intro n
  induction n with
  | zero => intro m h; simp [tri] at h
  | succ k ih =>
    intro m h
    by_cases hm : m < tri k
    · obtain ⟨i, j, h1, h2, h3⟩ := ih m hm
      exact ⟨i, j, h1, Nat.lt_succ_of_lt h2, h3⟩
    · have hk : tri (k + 1) = tri k + k := tri_succ k
      refine ⟨m - tri k, k, by omega, Nat.lt_succ_self k, by omega⟩

/-- Directed rectangular configuration: NROWS=2, NCOLS=3, no mode flag.
It passes every constructor check. -/
def vRect : AdjacencyMatrixVessel :=
  { nrows := 2, ncols := 3, symmetric := false, hbonds := false, nnodes := 0 }

/-- Directed square configuration: NROWS=NCOLS=2, no mode flag. -/
def vSq : AdjacencyMatrixVessel :=
  { nrows := 2, ncols := 2, symmetric := false, hbonds := false, nnodes := 2 }

/-- Symmetric configuration on four nodes: NROWS=NCOLS=4, SYMMETRIC set. -/
def vSym4 : AdjacencyMatrixVessel :=
  { nrows := 4, ncols := 4, symmetric := true, hbonds := false, nnodes := 4 }

/-- C1 counterexample: in the valid directed configuration with rows=2 and
cols=3, the in-range pairs (0,2) and (1,0) are distinct yet receive the
same storage index, so the mapping (i,j) to rows*i+j is not injective on
the in-range pairs and hence not a bijection onto 0..rows*cols-1. -/
theorem claim_C1_counterexample :
    validConfig vRect = true ∧
    (0 : ℕ) < vRect.nrows ∧ (2 : ℕ) < vRect.ncols ∧
    (1 : ℕ) < vRect.nrows ∧ (0 : ℕ) < vRect.ncols ∧
    ((0 : ℕ), (2 : ℕ)) ≠ ((1 : ℕ), (0 : ℕ)) ∧
    getStoreIndexFromMatrixIndices vRect 0 2 = getStoreIndexFromMatrixIndices vRect 1 0 := by
  refine ⟨rfl, by decide, by decide, by decide, by decide, by decide, ?_⟩
  rw [getStoreIndexFromMatrixIndices_eq, getStoreIndexFromMatrixIndices_eq]
  rfl

/-- C1 (amended): in directed and hbonds modes, provided rows equals cols
(hbonds mode enforces this at construction), the storage-index mapping
(i,j) to rows*i+j restricted to in-range pairs is a bijection onto the
storage index space 0..rows*cols-1: it stays below rows*cols, it is
injective, and every index below rows*cols is attained. -/
theorem claim_C1 (v : AdjacencyMatrixVessel) (hs : v.symmetric = false)
    (hsq : v.nrows = v.ncols) :
    (∀ i j, i < v.nrows → j < v.ncols →
      getStoreIndexFromMatrixIndices v i j < v.nrows * v.ncols) ∧
    (∀ i j k l, i < v.nrows → j < v.ncols → k < v.nrows → l < v.ncols →
      getStoreIndexFromMatrixIndices v i j = getStoreIndexFromMatrixIndices v k l →
      i = k ∧ j = l) ∧
    (∀ m, m < v.nrows * v.ncols →
      ∃ i j, i < v.nrows ∧ j < v.ncols ∧ getStoreIndexFromMatrixIndices v i j = m) := by
  have hf : ∀ i j : ℕ, getStoreIndexFromMatrixIndices v i j = v.nrows * i + j := by
    intro i j
    rw [getStoreIndexFromMatrixIndices_eq, hs]
    simp
  refine ⟨?_, ?_, ?_⟩
  · intro i j hi hj
    rw [hf]
    calc v.nrows * i + j < v.nrows * i + v.nrows := by omega
      _ = v.nrows * (i + 1) := by ring
      _ ≤ v.nrows * v.nrows := Nat.mul_le_mul_left _ (by omega)
      _ = v.nrows * v.ncols := by rw [hsq]
  · intro i j k l hi hj hk hl heq
    rw [hf, hf] at heq
    have hn : 0 < v.nrows := by omega
    have hj2 : j < v.nrows := by omega
    have hl2 : l < v.nrows := by omega
    have hmodj : (v.nrows * i + j) % v.nrows = j := by
      rw [Nat.mul_add_mod]
      exact Nat.mod_eq_of_lt hj2
    have hmodl : (v.nrows * k + l) % v.nrows = l := by
      rw [Nat.mul_add_mod]
      exact Nat.mod_eq_of_lt hl2
    have hjl : j = l := by rw [← hmodj, ← hmodl, heq]
    have : v.nrows * i = v.nrows * k := by omega
    have := Nat.eq_of_mul_eq_mul_left hn this
    exact ⟨this, hjl⟩
  · intro m hm
    have hn : 0 < v.nrows := by
      rcases Nat.eq_zero_or_pos v.nrows with h0 | h0
      · rw [h0] at hm; omega
      · exact h0
    refine ⟨m / v.nrows, m % v.nrows, ?_, ?_, ?_⟩
    · rw [Nat.div_lt_iff_lt_mul hn]
      calc m < v.nrows * v.ncols := hm
        _ = v.nrows * v.nrows := by rw [hsq]
        _ = v.nrows * v.nrows := rfl
    · rw [← hsq]
      exact Nat.mod_lt _ hn
    · rw [hf]
      exact Nat.div_add_mod m v.nrows

/-- C1 witness: the amended bijection claim instantiated on the square
directed configuration vSq at the in-range pair (1,1). -/
theorem claim_C1_witness :
    getStoreIndexFromMatrixIndices vSq 1 1 < vSq.nrows * vSq.ncols :=
  (claim_C1 vSq rfl rfl).1 1 1 (by norm_num [vSq]) (by norm_num [vSq])

/-- C2: in symmetric mode the triangular storage mapping is a bijection
between unordered pairs of distinct nodes drawn from 0..n-1 and the
indices 0..n(n-1)/2-1: each in-range pair with distinct coordinates maps
below n(n-1)/2, two pairs share an index only when they are the same
unordered pair, and every index below n(n-1)/2 is attained. -/
theorem claim_C2 (v : AdjacencyMatrixVessel) (hs : v.symmetric = true) (n : ℕ) :
    (∀ i j, i < n → j < n → i ≠ j →
      getStoreIndexFromMatrixIndices v i j < n * (n - 1) / 2) ∧
    (∀ i j k l, i < n → j < n → k < n → l < n → i ≠ j → k ≠ l →
      getStoreIndexFromMatrixIndices v i j = getStoreIndexFromMatrixIndices v k l →
      (i = k ∧ j = l) ∨ (i = l ∧ j = k)) ∧
    (∀ m, m < n * (n - 1) / 2 →
      ∃ i j, i < j ∧ j < n ∧ getStoreIndexFromMatrixIndices v i j = m) := by
  have hf : ∀ i j : ℕ, getStoreIndexFromMatrixIndices v i j =
      if i > j then tri i + j else tri j + i := by
    intro i j
    rw [getStoreIndexFromMatrixIndices_eq, hs]
    simp
  have htri : n * (n - 1) / 2 = tri n := rfl
  refine ⟨?_, ?_, ?_⟩
  · intro i j hi hj hij
    rw [hf, htri]
    by_cases h : i > j
    · simp only [h, if_true]
      exact tri_add_lt h hi
    · have h2 : i < j := by omega
      simp only [h, if_false]
      exact tri_add_lt h2 hj
  · intro i j k l hi hj hk hl hij hkl heq
    rw [hf, hf] at heq
    by_cases h1 : i > j <;> by_cases h2 : k > l
    · simp only [h1, h2, if_true] at heq
      have := tri_add_inj (show j < i by omega) (show l < k by omega) heq
      omega
    · simp only [h1, h2, if_true, if_false] at heq
      have := tri_add_inj (show j < i by omega) (show k < l by omega) heq
      omega
    · simp only [h1, h2, if_true, if_false] at heq
      have := tri_add_inj (show i < j by omega) (show l < k by omega) heq
      omega
    · simp only [h1, h2, if_false] at heq
      have := tri_add_inj (show i < j by omega) (show k < l by omega) heq
      omega
  · intro m hm
    rw [htri] at hm
    obtain ⟨i, j, h1, h2, h3⟩ := tri_surj n m hm
    refine ⟨i, j, h1, h2, ?_⟩
    rw [hf]
    simp only [show ¬(i > j) by omega, if_false]
    exact h3

/-- C2 witness: the bijection claim instantiated on the symmetric
four-node configuration, producing the pair that maps to storage index 5,
the last of the six indices. -/
theorem claim_C2_witness :
    ∃ i j, i < j ∧ j < 4 ∧ getStoreIndexFromMatrixIndices vSym4 i j = 5 :=
  (claim_C2 vSym4 rfl 4).2.2 5 (by norm_num)

/-- C3: when symmetric mode is set the storage index is invariant under
swapping the two matrix coordinates of a pair of distinct nodes, and when
symmetric mode is not set (directed or hbonds storage) the two orders of
any in-range pair of distinct coordinates receive different indices. -/
theorem claim_C3 :
    (∀ v : AdjacencyMatrixVessel, v.symmetric = true → ∀ i j : ℕ, i ≠ j →
      getStoreIndexFromMatrixIndices v i j = getStoreIndexFromMatrixIndices v j i) ∧
    (∀ v : AdjacencyMatrixVessel, v.symmetric = false → ∀ i j : ℕ, i ≠ j →
      i < v.nrows → j < v.nrows → i < v.ncols → j < v.ncols →
      getStoreIndexFromMatrixIndices v i j ≠ getStoreIndexFromMatrixIndices v j i) := by
  constructor
  · intro v hs i j hij
    rw [getStoreIndexFromMatrixIndices_eq, getStoreIndexFromMatrixIndices_eq, hs]
    simp only [Bool.not_true, Bool.false_eq_true, if_false]
    by_cases h : i > j
    · rw [if_pos h, if_neg (show ¬(j > i) by omega)]
    · rw [if_neg h, if_pos (show j > i by omega)]
  · intro v hs i j hij hir hjr hic hjc
    rw [getStoreIndexFromMatrixIndices_eq, getStoreIndexFromMatrixIndices_eq, hs]
    simp only [Bool.not_false, if_true]
    rcases Nat.lt_or_ge i j with h | h
    · have : v.nrows * i + j < v.nrows * j + i := by
        calc v.nrows * i + j < v.nrows * i + v.nrows := by omega
          _ = v.nrows * (i + 1) := by ring
          _ ≤ v.nrows * j := Nat.mul_le_mul_left _ (by omega)
          _ ≤ v.nrows * j + i := Nat.le_add_right _ _
      omega
    · have h2 : j < i := by omega
      have : v.nrows * j + i < v.nrows * i + j := by
        calc v.nrows * j + i < v.nrows * j + v.nrows := by omega
          _ = v.nrows * (j + 1) := by ring
          _ ≤ v.nrows * i := Nat.mul_le_mul_left _ (by omega)
          _ ≤ v.nrows * i + j := Nat.le_add_right _ _
      omega

/-- C3 witness: swap invariance on the symmetric four-node configuration
at the pair (0,1), and swap sensitivity on the square directed
configuration at the same pair. -/
theorem claim_C3_witness :
    getStoreIndexFromMatrixIndices vSym4 0 1 = getStoreIndexFromMatrixIndices vSym4 1 0 ∧
    getStoreIndexFromMatrixIndices vSq 0 1 ≠ getStoreIndexFromMatrixIndices vSq 1 0 :=
  ⟨claim_C3.1 vSym4 rfl 0 1 (by norm_num),
   claim_C3.2 vSq rfl 0 1 (by norm_num) (by norm_num [vSq]) (by norm_num [vSq])
     (by norm_num [vSq]) (by norm_num [vSq])⟩

/-- C4: on every configuration accepted by the constructor the stored
value count is rows*cols in directed and hbonds modes, and n(n-1)/2 in
symmetric mode for every node count n of at least 2. -/
theorem claim_C4 (v : AdjacencyMatrixVessel) (_hv : validConfig v = true) :
    (v.symmetric = false → getNumberOfStoredValues v = v.nrows * v.ncols) ∧
    (v.symmetric = true → 2 ≤ v.nnodes →
      getNumberOfStoredValues v = v.nnodes * (v.nnodes - 1) / 2) := by
  constructor
  · intro hs
    rw [getNumberOfStoredValues_eq, hs]
    simp
  · intro hs hn
    rw [getNumberOfStoredValues_eq, hs]
    simp [tri]

/-- C4 witness: the stored value counts of the square directed
configuration and of the symmetric four-node configuration. -/
theorem claim_C4_witness :
    getNumberOfStoredValues vSq = vSq.nrows * vSq.ncols ∧
    getNumberOfStoredValues vSym4 = vSym4.nnodes * (vSym4.nnodes - 1) / 2 :=
  ⟨(claim_C4 vSq (by norm_num [validConfig, vSq])).1 rfl,
   (claim_C4 vSym4 (by norm_num [validConfig, vSym4])).2 rfl (by norm_num [vSym4])⟩

/-- Store state visible to the view builders.  The activity query
storedValueIsActive and the stored pair returned by retrieveValue live in
the StoreDataVessel base class, which is not among the provided sources;
following the spec they are modelled as an activity bit per storage index
and the raw pair (weight W, weighted value V) per storage index, whose
ratio V/W is the externally visible normalized value.  The decode field
is the external task decoder reached through getMatrixIndices. -/
structure AMStore where
  vessel : AdjacencyMatrixVessel
  storedActive : ℕ → Bool
  storedVals : ℕ → ℚ × ℚ
  decode : ℕ → ℕ × ℕ

/-- Member getMatrixIndices: obtains the two node indices of a stored
element from the external decoder (decodeIndexToAtoms on the task code),
a pure lookup. -/
def getMatrixIndices (s : AMStore) (code : ℕ) : ℕ × ℕ := s.decode code

/-- Normalized value vals[1]/vals[0] of a stored element. -/
def normedValue (s : AMStore) (i : ℕ) : ℚ := (s.storedVals i).2 / (s.storedVals i).1

/-- Loop body of retrieveMatrix for one storage index: inactive members
are skipped; an active member is recorded in the active-element list and
its normalized value is written into cell (k,j), and into (j,k) as well
when the matrix is symmetric. -/
def rmStep (s : AMStore) (acc : List ℕ × (ℕ → ℕ → ℚ)) (i : ℕ) :
    List ℕ × (ℕ → ℕ → ℚ) :=
  if s.storedActive i = false then acc else
  let k := (getMatrixIndices s i).1
  let j := (getMatrixIndices s i).2
  if s.vessel.symmetric then
    (acc.1 ++ [i],
      fun a b => if (a = k ∧ b = j) ∨ (a = j ∧ b = k) then normedValue s i else acc.2 a b)
  else
    (acc.1 ++ [i], fun a b => if a = k ∧ b = j then normedValue s i else acc.2 a b)

/-- Partial run of the retrieveMatrix loop over the first t storage
indices, starting from an empty active-element list (deactivateAll) and
the matrix supplied by the caller. -/
def rmFold (s : AMStore) (mymatrix : ℕ → ℕ → ℚ) (t : ℕ) : List ℕ × (ℕ → ℕ → ℚ) :=
  List.foldl (rmStep s) ([], mymatrix) (List.range t)

/-- Member retrieveMatrix: the loop over all storage indices. -/
def retrieveMatrix (s : AMStore) (mymatrix : ℕ → ℕ → ℚ) : List ℕ × (ℕ → ℕ → ℚ) :=
  rmFold s mymatrix (getNumberOfStoredValues s.vessel)

/-- Loop body of retrieveAdjacencyLists for one storage index: inactive
members are skipped; for an active member the other node is appended to
the adjacency row of each of the two nodes and both neighbor counts are
bumped, in the order written in the source. -/
def alStep (s : AMStore) (acc : (ℕ → ℕ) × (ℕ → ℕ → ℕ)) (i : ℕ) :
    (ℕ → ℕ) × (ℕ → ℕ → ℕ) :=
  if s.storedActive i = false then acc else
  let k := (getMatrixIndices s i).1
  let j := (getMatrixIndices s i).2
  let nneigh := acc.1
  let adj1 : ℕ → ℕ → ℕ := fun a b => if a = k ∧ b = nneigh k then j else acc.2 a b
  let nneigh1 : ℕ → ℕ := fun a => if a = k then nneigh k + 1 else nneigh a
  let adj2 : ℕ → ℕ → ℕ := fun a b => if a = j ∧ b = nneigh1 j then k else adj1 a b
  let nneigh2 : ℕ → ℕ := fun a => if a = j then nneigh1 j + 1 else nneigh1 a
  (nneigh2, adj2)

/-- Partial run of the retrieveAdjacencyLists loop over the first t
storage indices, starting from neighbor counts that have all been zeroed
and the adjacency table supplied by the caller. -/
def alFold (s : AMStore) (adj0 : ℕ → ℕ → ℕ) (t : ℕ) : (ℕ → ℕ) × (ℕ → ℕ → ℕ) :=
  List.foldl (alStep s) (fun _ => 0, adj0) (List.range t)

/-- Full run of the retrieveAdjacencyLists loop. -/
def alRun (s : AMStore) (adj0 : ℕ → ℕ → ℕ) : (ℕ → ℕ) × (ℕ → ℕ → ℕ) :=
  alFold s adj0 (getNumberOfStoredValues s.vessel)

/-- Member retrieveAdjacencyLists: the assertion on undirectedGraph is
modelled as the none result, otherwise the accumulation loop runs. -/
def retrieveAdjacencyLists (s : AMStore) (adj0 : ℕ → ℕ → ℕ) :
    Option ((ℕ → ℕ) × (ℕ → ℕ → ℕ)) :=
  if undirectedGraph s.vessel = false then none else some (alRun s adj0)

/-- Loop body of retrieveEdgeList for one storage index: inactive members
are skipped; an active member has its decoded pair written at position
nedge of the edge list, and nedge is bumped. -/
def elStep (s : AMStore) (acc : ℕ × (ℕ → ℕ × ℕ)) (i : ℕ) : ℕ × (ℕ → ℕ × ℕ) :=
  if s.storedActive i = false then acc else
  (acc.1 + 1, fun m => if m = acc.1 then getMatrixIndices s i else acc.2 m)

/-- Partial run of the retrieveEdgeList loop over the first t storage
indices, starting from nedge=0 and the edge list supplied by the caller. -/
def elFold (s : AMStore) (el0 : ℕ → ℕ × ℕ) (t : ℕ) : ℕ × (ℕ → ℕ × ℕ) :=
  List.foldl (elStep s) (0, el0) (List.range t)

/-- Full run of the retrieveEdgeList loop. -/
def elRun (s : AMStore) (el0 : ℕ → ℕ × ℕ) : ℕ × (ℕ → ℕ × ℕ) :=
  elFold s el0 (getNumberOfStoredValues s.vessel)

/-- Member retrieveEdgeList: the assertion on undirectedGraph is modelled
as the none result, otherwise the loop runs. -/
def retrieveEdgeList (s : AMStore) (el0 : ℕ → ℕ × ℕ) : Option (ℕ × (ℕ → ℕ × ℕ)) :=
  if undirectedGraph s.vessel = false then none else some (elRun s el0)

/-- Derivative state of one stored element: the list of active sparse
derivative slots (getNumberActive together with getActiveIndex) and the
derivative table indexed by component and slot. -/
structure MultiValue where
  active : List ℕ
  deriv : ℕ → ℕ → ℚ

/-- One iteration of the retrieveDerivatives loop: component 1 at slot
jder becomes getDerivative(1,jder)/vals[0] - pref*getDerivative(0,jder),
every other entry is untouched. -/
def rdStep (w pref : ℚ) (m : MultiValue) (jder : ℕ) : MultiValue :=
  { m with
    deriv := fun c x =>
      if c = 1 ∧ x = jder then m.deriv 1 jder / w - pref * m.deriv 0 jder
      else m.deriv c x }

/-- Member retrieveDerivatives of AdjacencyMatrixVessel.  The initial call
into StoreDataVessel::retrieveDerivatives, whose code is not among the
provided sources, is modelled from the spec: it loads into myvals the
per-task partial derivatives of the raw weight (component 0) and of the
raw weighted value (component 1); the argument mv stands for its result.
Likewise retrieveValue is modelled from the spec as producing the stored
raw pair (W, V), passed here as vals.  When the weight computation
carries no derivatives the function returns immediately; otherwise every
active slot of component 1 is rewritten using pref = vals[1]/vals[0]^2. -/
def retrieveDerivatives (weightHasDerivatives : Bool) (vals : ℚ × ℚ)
    (mv : MultiValue) : MultiValue :=
  if weightHasDerivatives = false then mv else
  List.foldl (rdStep vals.1 (vals.2 / (vals.1 * vals.1))) mv mv.active

/-- Node a is one of the two nodes decoded from storage index i. -/
def touchesNode (s : AMStore) (i a : ℕ) : Prop :=
  a = (getMatrixIndices s i).1 ∨ a = (getMatrixIndices s i).2

/-- Cell (a,b) of the dense matrix is written while processing storage
index i in symmetric mode: the decoded pair or its mirror. -/
def writesCell (s : AMStore) (i a b : ℕ) : Prop :=
  (a = (getMatrixIndices s i).1 ∧ b = (getMatrixIndices s i).2) ∨
    (a = (getMatrixIndices s i).2 ∧ b = (getMatrixIndices s i).1)

/-- C10: getStoreIndex returns getStoreIndexFromMatrixIndices applied to
the matrix indices decoded from the task, on every configuration and in
every mode; the mode-specific formulas that follow the first return
statement of its body are dead code and never influence the result. -/
theorem claim_C10 (v : AdjacencyMatrixVessel) (decode : ℕ → ℕ × ℕ) (myelem : ℕ) :
    getStoreIndex v decode myelem =
      getStoreIndexFromMatrixIndices v (decode myelem).1 (decode myelem).2 := rfl

/-- Directed store over the square directed configuration, with no active
element. -/
def sDir : AMStore :=
  { vessel := vSq, storedActive := fun _ => false, storedVals := fun _ => (1, 0),
    decode := fun _ => (0, 0) }

/-- C8: when neither symmetric nor hbonds mode is set, both the
adjacency-list view and the edge-list view fail their precondition check
and return no data at all. -/
theorem claim_C8 (s : AMStore) (adj0 : ℕ → ℕ → ℕ) (el0 : ℕ → ℕ × ℕ)
    (h : undirectedGraph s.vessel = false) :
    retrieveAdjacencyLists s adj0 = none ∧ retrieveEdgeList s el0 = none := by
  unfold retrieveAdjacencyLists retrieveEdgeList
  rw [h]
  simp

/-- C8 witness: both views rejected on the directed store sDir. -/
theorem claim_C8_witness :
    retrieveAdjacencyLists sDir (fun _ _ => 0) = none ∧
      retrieveEdgeList sDir (fun _ => (0, 0)) = none :=
  claim_C8 sDir (fun _ _ => 0) (fun _ => (0, 0)) (by decide)

lemma rdFold_spec (w pref : ℚ) : ∀ (l : List ℕ) (mv : MultiValue), l.Nodup →
    (∀ c x, c ≠ 1 → (List.foldl (rdStep w pref) mv l).deriv c x = mv.deriv c x) ∧
    (∀ x, x ∉ l → (List.foldl (rdStep w pref) mv l).deriv 1 x = mv.deriv 1 x) ∧
    (∀ x ∈ l, (List.foldl (rdStep w pref) mv l).deriv 1 x =
      mv.deriv 1 x / w - pref * mv.deriv 0 x) := by
  intro l
  induction l with
  | nil => intro mv _; refine ⟨fun c x _ => rfl, fun x _ => rfl, fun x hx => absurd hx (by simp)⟩
  | cons a l ih =>
    intro mv hnd
    have hnd2 : l.Nodup := hnd.of_cons
    have hal : a ∉ l := by
      intro hmem
      exact (List.nodup_cons.mp hnd).1 hmem
    obtain ⟨ih1, ih2, ih3⟩ := ih (rdStep w pref mv a) hnd2
    refine ⟨?_, ?_, ?_⟩
    · intro c x hc
      rw [List.foldl_cons, ih1 c x hc]
      simp [rdStep, hc]
    · intro x hx
      have hxa : x ≠ a := by simp at hx; exact hx.1
      have hxl : x ∉ l := by simp at hx; exact hx.2
      rw [List.foldl_cons, ih2 x hxl]
      simp [rdStep, hxa]
    · intro x hx
      rcases List.mem_cons.mp hx with hxa | hxl
      · subst hxa
        rw [List.foldl_cons, ih2 x hal]
        simp [rdStep]
      · have hxa : x ≠ a := fun he => hal (he ▸ hxl)
        rw [List.foldl_cons, ih3 x hxl]
        simp [rdStep, hxa]

/-- C9 (amended): when the weight computation carries derivatives, the
adapter rewrites every active slot of the normalized-value derivative by
the quotient rule dV/W - (V/W^2)*dW with V the raw weighted value and W
the raw weight, so that for weight 2, weighted value 4, dW=1, dV=3 the
adjusted derivative equals 3/2 - (4/4)*1 = 1/2; when the weight carries
no derivative capability the derivatives are returned unmodified. -/
theorem claim_C9 (w v : ℚ) (mv : MultiValue) (hnd : mv.active.Nodup) :
    (∀ jder ∈ mv.active,
      (retrieveDerivatives true (w, v) mv).deriv 1 jder =
        mv.deriv 1 jder / w - (v / (w * w)) * mv.deriv 0 jder) ∧
    retrieveDerivatives false (w, v) mv = mv := by
  constructor
  · intro jder hmem
    unfold retrieveDerivatives
    simp only [Bool.true_eq_false, if_false]
    exact (rdFold_spec w (v / (w * w)) mv.active mv hnd).2.2 jder hmem
  · rfl

/-- Derivative state with one active slot 5 carrying dW=1 (component 0)
and dV=3 (component 1). -/
def mvEx : MultiValue :=
  { active := [5],
    deriv := fun c x =>
      if c = 0 ∧ x = 5 then 1 else if c = 1 ∧ x = 5 then 3 else 0 }

/-- C9 counterexample: for weight 2, weighted value 4, dW=1, dV=3 the
adapter computes 3/2 - (4/4)*1 = 1/2, not the value 1.0 stated by the
claim. -/
theorem claim_C9_counterexample :
    (retrieveDerivatives true (2, 4) mvEx).deriv 1 5 = 1 / 2 ∧ ((1 : ℚ) / 2) ≠ 1 := by
  constructor
  · show (List.foldl (rdStep 2 (4 / (2 * 2))) mvEx mvEx.active).deriv 1 5 = 1 / 2
    have hl : mvEx.active = [5] := rfl
    rw [hl, List.foldl_cons, List.foldl_nil]
    norm_num [rdStep, mvEx]
  · norm_num

/-- C9 witness: the amended quotient-rule statement applied to the
concrete input of the counterexample, in both capability modes. -/
theorem claim_C9_witness :
    (retrieveDerivatives true (2, 4) mvEx).deriv 1 5 =
        mvEx.deriv 1 5 / 2 - (4 / (2 * 2)) * mvEx.deriv 0 5 ∧
      retrieveDerivatives false (2, 4) mvEx = mvEx :=
  ⟨(claim_C9 2 4 mvEx (by simp [mvEx])).1 5 (by simp [mvEx]),
   (claim_C9 2 4 mvEx (by simp [mvEx])).2⟩

/-- Active storage indices below t, in ascending order. -/
def activePrefix (s : AMStore) (t : ℕ) : List ℕ :=
  (List.range t).filter (fun i => s.storedActive i)

lemma activePrefix_succ (s : AMStore) (t : ℕ) :
    activePrefix s (t + 1) =
      activePrefix s t ++ if s.storedActive t = true then [t] else [] := by
  unfold activePrefix
  rw [List.range_succ, List.filter_append, List.filter_singleton]
  by_cases h : s.storedActive t = true
  · simp [h]
  · simp [h]

lemma elFold_succ (s : AMStore) (el0 : ℕ → ℕ × ℕ) (t : ℕ) :
    elFold s el0 (t + 1) = elStep s (elFold s el0 t) t := by
  unfold elFold
  rw [List.range_succ, List.foldl_append, List.foldl_cons, List.foldl_nil]

lemma elStep_inactive (s : AMStore) (acc : ℕ × (ℕ → ℕ × ℕ)) (i : ℕ)
    (h : s.storedActive i = false) : elStep s acc i = acc := by
  simp [elStep, h]

lemma elStep_active_fst (s : AMStore) (acc : ℕ × (ℕ → ℕ × ℕ)) (i : ℕ)
    (h : s.storedActive i = true) : (elStep s acc i).1 = acc.1 + 1 := by
  simp [elStep, h]

lemma elStep_active_snd (s : AMStore) (acc : ℕ × (ℕ → ℕ × ℕ)) (i : ℕ)
    (h : s.storedActive i = true) (m : ℕ) :
    (elStep s acc i).2 m = if m = acc.1 then getMatrixIndices s i else acc.2 m := by
  simp [elStep, h]

lemma elFold_spec (s : AMStore) (el0 : ℕ → ℕ × ℕ) : ∀ t : ℕ,
    (elFold s el0 t).1 = (activePrefix s t).length ∧
    (∀ m, m < (activePrefix s t).length →
      (elFold s el0 t).2 m = getMatrixIndices s ((activePrefix s t).getD m 0)) ∧
    (∀ m, (activePrefix s t).length ≤ m → (elFold s el0 t).2 m = el0 m) := by
  intro t
  induction t with
  | zero =>
    refine ⟨rfl, ?_, fun m _ => rfl⟩
    intro m hm
    simp [activePrefix] at hm
  | succ t ih =>
    obtain ⟨ih1, ih2, ih3⟩ := ih
    by_cases h : s.storedActive t = true
    · refine ⟨?_, ?_, ?_⟩
      · rw [elFold_succ, elStep_active_fst s _ t h, ih1, activePrefix_succ, if_pos h,
          List.length_append]
        simp
      · intro m hm
        rw [activePrefix_succ, if_pos h] at hm ⊢
        rw [List.length_append, List.length_singleton] at hm
        rw [elFold_succ, elStep_active_snd s _ t h]
        rcases Nat.lt_or_ge m (activePrefix s t).length with hlt | hge
        · rw [if_neg (by rw [ih1]; omega), ih2 m hlt, List.getD_append _ _ _ _ hlt]
        · have hm2 : m = (activePrefix s t).length := by omega
          rw [if_pos (by rw [ih1, hm2]), List.getD_append_right _ _ _ _ (by omega), hm2]
          simp
      · intro m hm
        rw [activePrefix_succ, if_pos h, List.length_append, List.length_singleton] at hm
        rw [elFold_succ, elStep_active_snd s _ t h, if_neg (by rw [ih1]; omega)]
        exact ih3 m (by omega)
    · have hf : s.storedActive t = false := by
        revert h
        cases s.storedActive t <;> simp
      have hap : activePrefix s (t + 1) = activePrefix s t := by
        rw [activePrefix_succ, if_neg h, List.append_nil]
      refine ⟨?_, ?_, ?_⟩
      · rw [elFold_succ, elStep_inactive s _ t hf, hap]
        exact ih1
      · intro m hm
        rw [hap] at hm ⊢
        rw [elFold_succ, elStep_inactive s _ t hf]
        exact ih2 m hm
      · intro m hm
        rw [hap] at hm
        rw [elFold_succ, elStep_inactive s _ t hf]
        exact ih3 m hm

/-- C7: on an undirected configuration the edge-list view succeeds and
writes exactly one decoded pair per active storage index, in ascending
storage-index order, returning an edge count equal to the number of
active storage indices. -/
theorem claim_C7 (s : AMStore) (el0 : ℕ → ℕ × ℕ)
    (hund : undirectedGraph s.vessel = true) :
    retrieveEdgeList s el0 = some (elRun s el0) ∧
    (elRun s el0).1 = (activePrefix s (getNumberOfStoredValues s.vessel)).length ∧
    ∀ m, m < (activePrefix s (getNumberOfStoredValues s.vessel)).length →
      (elRun s el0).2 m =
        getMatrixIndices s ((activePrefix s (getNumberOfStoredValues s.vessel)).getD m 0) := by
  obtain ⟨h1, h2, _⟩ := elFold_spec s el0 (getNumberOfStoredValues s.vessel)
  exact ⟨by simp [retrieveEdgeList, hund], h1, h2⟩

lemma rmFold_succ (s : AMStore) (m0 : ℕ → ℕ → ℚ) (t : ℕ) :
    rmFold s m0 (t + 1) = rmStep s (rmFold s m0 t) t := by
  unfold rmFold
  rw [List.range_succ, List.foldl_append, List.foldl_cons, List.foldl_nil]

lemma rmStep_inactive (s : AMStore) (acc : List ℕ × (ℕ → ℕ → ℚ)) (i : ℕ)
    (h : s.storedActive i = false) : rmStep s acc i = acc := by
  simp [rmStep, h]

lemma rmStep_active_sym_snd (s : AMStore) (acc : List ℕ × (ℕ → ℕ → ℚ)) (i : ℕ)
    (h : s.storedActive i = true) (hsym : s.vessel.symmetric = true) (a b : ℕ) :
    (rmStep s acc i).2 a b =
      if (a = (getMatrixIndices s i).1 ∧ b = (getMatrixIndices s i).2) ∨
          (a = (getMatrixIndices s i).2 ∧ b = (getMatrixIndices s i).1)
        then normedValue s i else acc.2 a b := by
  simp [rmStep, h, hsym]

lemma rmFold_spec (s : AMStore) (m0 : ℕ → ℕ → ℚ) (S : ℕ)
    (hsym : s.vessel.symmetric = true)
    (hdisj : ∀ i1 i2, i1 < S → i2 < S → s.storedActive i1 = true →
      s.storedActive i2 = true → i1 ≠ i2 →
      ∀ a b, writesCell s i1 a b → ¬ writesCell s i2 a b) :
    ∀ t, t ≤ S →
      (∀ i, i < t → s.storedActive i = true →
        (rmFold s m0 t).2 (getMatrixIndices s i).1 (getMatrixIndices s i).2 = normedValue s i ∧
        (rmFold s m0 t).2 (getMatrixIndices s i).2 (getMatrixIndices s i).1 = normedValue s i) ∧
      (∀ a b, (∀ i, i < t → s.storedActive i = true → ¬ writesCell s i a b) →
        (rmFold s m0 t).2 a b = m0 a b) := by
  intro t
  induction t with
  | zero =>
    intro _
    exact ⟨fun i hi _ => absurd hi (Nat.not_lt_zero i), fun a b _ => rfl⟩
  | succ t ih =>
    intro ht
    obtain ⟨ih1, ih2⟩ := ih (by omega)
    by_cases h : s.storedActive t = true
    · constructor
      · intro i hi hia
        rcases Nat.lt_succ_iff_lt_or_eq.mp hi with hlt | heq
        · have hn1 : ¬ writesCell s t (getMatrixIndices s i).1 (getMatrixIndices s i).2 :=
            hdisj i t (by omega) (by omega) hia h (by omega) _ _ (Or.inl ⟨rfl, rfl⟩)
          have hn2 : ¬ writesCell s t (getMatrixIndices s i).2 (getMatrixIndices s i).1 :=
            hdisj i t (by omega) (by omega) hia h (by omega) _ _ (Or.inr ⟨rfl, rfl⟩)
          simp only [writesCell] at hn1 hn2
          constructor
          · rw [rmFold_succ, rmStep_active_sym_snd s _ t h hsym, if_neg hn1]
            exact (ih1 i hlt hia).1
          · rw [rmFold_succ, rmStep_active_sym_snd s _ t h hsym, if_neg hn2]
            exact (ih1 i hlt hia).2
        · subst heq
          constructor
          · rw [rmFold_succ, rmStep_active_sym_snd s _ i h hsym,
              if_pos (Or.inl ⟨rfl, rfl⟩)]
          · rw [rmFold_succ, rmStep_active_sym_snd s _ i h hsym,
              if_pos (Or.inr ⟨rfl, rfl⟩)]
      · intro a b hnb
        have hnt : ¬ writesCell s t a b := hnb t (Nat.lt_succ_self t) h
        simp only [writesCell] at hnt
        rw [rmFold_succ, rmStep_active_sym_snd s _ t h hsym, if_neg hnt]
        exact ih2 a b (fun i hi hia => hnb i (by omega) hia)
    · have hf : s.storedActive t = false := by
        revert h
        cases s.storedActive t <;> simp
      constructor
      · intro i hi hia
        have hlt : i < t := by
          rcases Nat.lt_succ_iff_lt_or_eq.mp hi with hlt | heq
          · exact hlt
          · subst heq
            rw [hf] at hia
            cases hia
        rw [rmFold_succ, rmStep_inactive s _ t hf]
        exact ih1 i hlt hia
      · intro a b hnb
        rw [rmFold_succ, rmStep_inactive s _ t hf]
        exact ih2 a b (fun i hi hia => hnb i (by omega) hia)

/-- C5: in symmetric mode, starting from an all-zero matrix and provided
the active slots decode to pairwise disjoint unordered cells, the dense
view writes the normalized value of every active slot into its decoded
cell and into the mirrored cell, and every cell written by no active slot
stays zero. -/
theorem claim_C5 (s : AMStore) (hsym : s.vessel.symmetric = true)
    (hdisj : ∀ i1 i2, i1 < getNumberOfStoredValues s.vessel →
      i2 < getNumberOfStoredValues s.vessel → s.storedActive i1 = true →
      s.storedActive i2 = true → i1 ≠ i2 →
      ∀ a b, writesCell s i1 a b → ¬ writesCell s i2 a b) :
    (∀ i, i < getNumberOfStoredValues s.vessel → s.storedActive i = true →
      (retrieveMatrix s (fun _ _ => 0)).2 (getMatrixIndices s i).1 (getMatrixIndices s i).2 =
        normedValue s i ∧
      (retrieveMatrix s (fun _ _ => 0)).2 (getMatrixIndices s i).2 (getMatrixIndices s i).1 =
        normedValue s i) ∧
    (∀ a b, (∀ i, i < getNumberOfStoredValues s.vessel → s.storedActive i = true →
        ¬ writesCell s i a b) →
      (retrieveMatrix s (fun _ _ => 0)).2 a b = 0) :=
  rmFold_spec s (fun _ _ => 0) (getNumberOfStoredValues s.vessel) hsym hdisj
    (getNumberOfStoredValues s.vessel) le_rfl

lemma alFold_succ (s : AMStore) (adj0 : ℕ → ℕ → ℕ) (t : ℕ) :
    alFold s adj0 (t + 1) = alStep s (alFold s adj0 t) t := by
  unfold alFold
  rw [List.range_succ, List.foldl_append, List.foldl_cons, List.foldl_nil]

lemma alStep_inactive (s : AMStore) (acc : (ℕ → ℕ) × (ℕ → ℕ → ℕ)) (i : ℕ)
    (h : s.storedActive i = false) : alStep s acc i = acc := by
  simp [alStep, h]

lemma alStep_nn (s : AMStore) (acc : (ℕ → ℕ) × (ℕ → ℕ → ℕ)) (i : ℕ)
    (h : s.storedActive i = true) (a : ℕ) :
    (alStep s acc i).1 a =
      if a = (getMatrixIndices s i).2 then
        (if (getMatrixIndices s i).2 = (getMatrixIndices s i).1
          then acc.1 (getMatrixIndices s i).1 + 1
          else acc.1 (getMatrixIndices s i).2) + 1
      else if a = (getMatrixIndices s i).1 then acc.1 (getMatrixIndices s i).1 + 1
      else acc.1 a := by
  simp [alStep, h]

lemma alStep_adj (s : AMStore) (acc : (ℕ → ℕ) × (ℕ → ℕ → ℕ)) (i : ℕ)
    (h : s.storedActive i = true) (a b : ℕ) :
    (alStep s acc i).2 a b =
      if a = (getMatrixIndices s i).2 ∧
          b = (if (getMatrixIndices s i).2 = (getMatrixIndices s i).1
            then acc.1 (getMatrixIndices s i).1 + 1
            else acc.1 (getMatrixIndices s i).2) then
        (getMatrixIndices s i).1
      else if a = (getMatrixIndices s i).1 ∧ b = acc.1 (getMatrixIndices s i).1 then
        (getMatrixIndices s i).2
      else acc.2 a b := by
  simp [alStep, h]

lemma alFold_spec (s : AMStore) (adj0 : ℕ → ℕ → ℕ) (S : ℕ)
    (hpair : ∀ i, i < S → s.storedActive i = true →
      (getMatrixIndices s i).1 ≠ (getMatrixIndices s i).2)
    (hdisj : ∀ i1 i2, i1 < S → i2 < S → s.storedActive i1 = true →
      s.storedActive i2 = true → i1 ≠ i2 →
      ∀ a, touchesNode s i1 a → ¬ touchesNode s i2 a) :
    ∀ t, t ≤ S →
      (∀ i, i < t → s.storedActive i = true →
        (alFold s adj0 t).1 (getMatrixIndices s i).1 = 1 ∧
        (alFold s adj0 t).1 (getMatrixIndices s i).2 = 1 ∧
        (alFold s adj0 t).2 (getMatrixIndices s i).1 0 = (getMatrixIndices s i).2 ∧
        (alFold s adj0 t).2 (getMatrixIndices s i).2 0 = (getMatrixIndices s i).1) ∧
      (∀ a, (∀ i, i < t → s.storedActive i = true → ¬ touchesNode s i a) →
        (alFold s adj0 t).1 a = 0) := by
  intro t
  induction t with
  | zero =>
    intro _
    exact ⟨fun i hi _ => absurd hi (Nat.not_lt_zero i), fun a _ => rfl⟩
  | succ t ih =>
    intro ht
    obtain ⟨ih1, ih2⟩ := ih (by omega)
    by_cases h : s.storedActive t = true
    · have hkj : (getMatrixIndices s t).1 ≠ (getMatrixIndices s t).2 :=
        hpair t (by omega) h
      have hnnk : (alFold s adj0 t).1 (getMatrixIndices s t).1 = 0 :=
        ih2 _ (fun i hi hia =>
          hdisj t i (by omega) (by omega) h hia (by omega) _ (Or.inl rfl))
      have hnnj : (alFold s adj0 t).1 (getMatrixIndices s t).2 = 0 :=
        ih2 _ (fun i hi hia =>
          hdisj t i (by omega) (by omega) h hia (by omega) _ (Or.inr rfl))
      constructor
      · intro i hi hia
        rcases Nat.lt_succ_iff_lt_or_eq.mp hi with hlt | heq
        · have hm1 : ¬ touchesNode s t (getMatrixIndices s i).1 :=
            hdisj i t (by omega) (by omega) hia h (by omega) _ (Or.inl rfl)
          have hm2 : ¬ touchesNode s t (getMatrixIndices s i).2 :=
            hdisj i t (by omega) (by omega) hia h (by omega) _ (Or.inr rfl)
          simp only [touchesNode, not_or] at hm1 hm2
          obtain ⟨ha1, ha2, ha3, ha4⟩ := ih1 i hlt hia
          refine ⟨?_, ?_, ?_, ?_⟩
          · rw [alFold_succ, alStep_nn s _ t h, if_neg hm1.2, if_neg hm1.1]
            exact ha1
          · rw [alFold_succ, alStep_nn s _ t h, if_neg hm2.2, if_neg hm2.1]
            exact ha2
          · rw [alFold_succ, alStep_adj s _ t h,
              if_neg (fun hc => hm1.2 hc.1), if_neg (fun hc => hm1.1 hc.1)]
            exact ha3
          · rw [alFold_succ, alStep_adj s _ t h,
              if_neg (fun hc => hm2.2 hc.1), if_neg (fun hc => hm2.1 hc.1)]
            exact ha4
        · subst heq
          refine ⟨?_, ?_, ?_, ?_⟩
          · rw [alFold_succ, alStep_nn s _ i h, if_neg hkj, if_pos rfl, hnnk]
          · rw [alFold_succ, alStep_nn s _ i h, if_pos rfl,
              if_neg (Ne.symm hkj), hnnj]
          · rw [alFold_succ, alStep_adj s _ i h,
              if_neg (fun hc => hkj hc.1), if_pos ⟨rfl, hnnk.symm⟩]
          · rw [alFold_succ, alStep_adj s _ i h, if_neg (Ne.symm hkj),
              if_pos ⟨rfl, hnnj.symm⟩]
      · intro a hnb
        have hnt : ¬ touchesNode s t a := hnb t (Nat.lt_succ_self t) h
        simp only [touchesNode, not_or] at hnt
        rw [alFold_succ, alStep_nn s _ t h, if_neg hnt.2, if_neg hnt.1]
        exact ih2 a (fun i hi hia => hnb i (by omega) hia)
    · have hf : s.storedActive t = false := by
        revert h
        cases s.storedActive t <;> simp
      constructor
      · intro i hi hia
        have hlt : i < t := by
          rcases Nat.lt_succ_iff_lt_or_eq.mp hi with hlt | heq
          · exact hlt
          · subst heq
            rw [hf] at hia
            cases hia
        rw [alFold_succ, alStep_inactive s _ t hf]
        exact ih1 i hlt hia
      · intro a hnb
        rw [alFold_succ, alStep_inactive s _ t hf]
        exact ih2 a (fun i hi hia => hnb i (by omega) hia)

/-- C6: on an undirected configuration the adjacency-list view succeeds
starting from neighbor counts that are all zeroed, and provided the
active slots decode to pairwise node-disjoint pairs of distinct nodes,
both nodes of every active pair end with neighbor count 1 and each
node's adjacency row starts with its partner, while every node touched
by no active pair keeps neighbor count 0. -/
theorem claim_C6 (s : AMStore) (adj0 : ℕ → ℕ → ℕ)
    (hund : undirectedGraph s.vessel = true)
    (hpair : ∀ i, i < getNumberOfStoredValues s.vessel → s.storedActive i = true →
      (getMatrixIndices s i).1 ≠ (getMatrixIndices s i).2)
    (hdisj : ∀ i1 i2, i1 < getNumberOfStoredValues s.vessel →
      i2 < getNumberOfStoredValues s.vessel → s.storedActive i1 = true →
      s.storedActive i2 = true → i1 ≠ i2 →
      ∀ a, touchesNode s i1 a → ¬ touchesNode s i2 a) :
    retrieveAdjacencyLists s adj0 = some (alRun s adj0) ∧
    (∀ i, i < getNumberOfStoredValues s.vessel → s.storedActive i = true →
      (alRun s adj0).1 (getMatrixIndices s i).1 = 1 ∧
      (alRun s adj0).1 (getMatrixIndices s i).2 = 1 ∧
      (alRun s adj0).2 (getMatrixIndices s i).1 0 = (getMatrixIndices s i).2 ∧
      (alRun s adj0).2 (getMatrixIndices s i).2 0 = (getMatrixIndices s i).1) ∧
    (∀ a, (∀ i, i < getNumberOfStoredValues s.vessel → s.storedActive i = true →
        ¬ touchesNode s i a) →
      (alRun s adj0).1 a = 0) := by
  obtain ⟨h1, h2⟩ := alFold_spec s adj0 (getNumberOfStoredValues s.vessel) hpair hdisj
    (getNumberOfStoredValues s.vessel) le_rfl
  exact ⟨by simp [retrieveAdjacencyLists, hund], h1, h2⟩

/-- Symmetric store over the four-node configuration with the two active
slots of the spec example: storage index 0 decodes to the pair (0,1) with
normalized value 1/2, storage index 5 decodes to (2,3) with normalized
value 4/5. -/
def sSym : AMStore :=
  { vessel := vSym4,
    storedActive := fun i => i == 0 || i == 5,
    storedVals := fun i => if i = 0 then (1, 1 / 2) else if i = 5 then (1, 4 / 5) else (1, 0),
    decode := fun i => if i = 0 then (0, 1) else if i = 5 then (2, 3) else (0, 0) }

lemma sSym_active (i : ℕ) (h : sSym.storedActive i = true) : i = 0 ∨ i = 5 := by
  simpa [sSym] using h

lemma sSym_S : getNumberOfStoredValues sSym.vessel = 6 := by
  rw [getNumberOfStoredValues_eq]
  decide

lemma sSym_g0 : getMatrixIndices sSym 0 = (0, 1) := by decide

lemma sSym_g5 : getMatrixIndices sSym 5 = (2, 3) := by decide

/-- C5 witness: the dense-matrix round trip of the spec example, via the
claim instantiated on sSym: the cells (0,1) and (1,0) hold 1/2, the cells
(2,3) and (3,2) hold 4/5, and an untouched cell stays zero. -/
theorem claim_C5_witness :
    (retrieveMatrix sSym (fun _ _ => 0)).2 0 1 = 1 / 2 ∧
    (retrieveMatrix sSym (fun _ _ => 0)).2 1 0 = 1 / 2 ∧
    (retrieveMatrix sSym (fun _ _ => 0)).2 2 3 = 4 / 5 ∧
    (retrieveMatrix sSym (fun _ _ => 0)).2 3 2 = 4 / 5 ∧
    (retrieveMatrix sSym (fun _ _ => 0)).2 1 2 = 0 := by
  have hdisj : ∀ i1 i2, i1 < getNumberOfStoredValues sSym.vessel →
      i2 < getNumberOfStoredValues sSym.vessel → sSym.storedActive i1 = true →
      sSym.storedActive i2 = true → i1 ≠ i2 →
      ∀ a b, writesCell sSym i1 a b → ¬ writesCell sSym i2 a b := by
    intro i1 i2 _ _ ha1 ha2 hne a b hw1 hw2
    rcases sSym_active i1 ha1 with e1 | e1 <;> rcases sSym_active i2 ha2 with e2 | e2 <;>
      subst e1 <;> subst e2
    · exact hne rfl
    · simp [writesCell, getMatrixIndices, sSym] at hw1 hw2
      omega
    · simp [writesCell, getMatrixIndices, sSym] at hw1 hw2
      omega
    · exact hne rfl
  obtain ⟨hval, hzero⟩ := claim_C5 sSym rfl hdisj
  have h0 := hval 0 (by rw [sSym_S]; norm_num) (by decide)
  have h5 := hval 5 (by rw [sSym_S]; norm_num) (by decide)
  rw [sSym_g0] at h0
  rw [sSym_g5] at h5
  have hn0 : normedValue sSym 0 = 1 / 2 := by norm_num [normedValue, sSym]
  have hn5 : normedValue sSym 5 = 4 / 5 := by norm_num [normedValue, sSym]
  refine ⟨?_, ?_, ?_, ?_, ?_⟩
  · have hc := h0.1
    rw [hn0] at hc
    simpa using hc
  · have hc := h0.2
    rw [hn0] at hc
    simpa using hc
  · have hc := h5.1
    rw [hn5] at hc
    simpa using hc
  · have hc := h5.2
    rw [hn5] at hc
    simpa using hc
  · refine hzero 1 2 ?_
    intro i _ hia hw
    rcases sSym_active i hia with e | e <;> subst e <;>
      simp [writesCell, getMatrixIndices, sSym] at hw

/-- C6 witness: the adjacency-list degree check of the spec example, via
the claim instantiated on sSym: every node 0..3 ends with neighbor count
1 and its unique recorded neighbor is its partner. -/
theorem claim_C6_witness :
    retrieveAdjacencyLists sSym (fun _ _ => 0) = some (alRun sSym (fun _ _ => 0)) ∧
    (alRun sSym (fun _ _ => 0)).1 0 = 1 ∧ (alRun sSym (fun _ _ => 0)).2 0 0 = 1 ∧
    (alRun sSym (fun _ _ => 0)).1 1 = 1 ∧ (alRun sSym (fun _ _ => 0)).2 1 0 = 0 ∧
    (alRun sSym (fun _ _ => 0)).1 2 = 1 ∧ (alRun sSym (fun _ _ => 0)).2 2 0 = 3 ∧
    (alRun sSym (fun _ _ => 0)).1 3 = 1 ∧ (alRun sSym (fun _ _ => 0)).2 3 0 = 2 := by
  have hpair : ∀ i, i < getNumberOfStoredValues sSym.vessel → sSym.storedActive i = true →
      (getMatrixIndices sSym i).1 ≠ (getMatrixIndices sSym i).2 := by
    intro i _ hia
    rcases sSym_active i hia with e | e <;> subst e <;> decide
  have hdisj : ∀ i1 i2, i1 < getNumberOfStoredValues sSym.vessel →
      i2 < getNumberOfStoredValues sSym.vessel → sSym.storedActive i1 = true →
      sSym.storedActive i2 = true → i1 ≠ i2 →
      ∀ a, touchesNode sSym i1 a → ¬ touchesNode sSym i2 a := by
    intro i1 i2 _ _ ha1 ha2 hne a ht1 ht2
    rcases sSym_active i1 ha1 with e1 | e1 <;> rcases sSym_active i2 ha2 with e2 | e2 <;>
      subst e1 <;> subst e2
    · exact hne rfl
    · simp [touchesNode, getMatrixIndices, sSym] at ht1 ht2
      omega
    · simp [touchesNode, getMatrixIndices, sSym] at ht1 ht2
      omega
    · exact hne rfl
  obtain ⟨hsome, hval, _⟩ := claim_C6 sSym (fun _ _ => 0) rfl hpair hdisj
  have h0 := hval 0 (by rw [sSym_S]; norm_num) (by decide)
  have h5 := hval 5 (by rw [sSym_S]; norm_num) (by decide)
  rw [sSym_g0] at h0
  rw [sSym_g5] at h5
  obtain ⟨a1, a2, a3, a4⟩ := h0
  obtain ⟨b1, b2, b3, b4⟩ := h5
  exact ⟨hsome, by simpa using a1, by simpa using a3, by simpa using a2, by simpa using a4,
    by simpa using b1, by simpa using b3, by simpa using b2, by simpa using b4⟩

/-- C7 witness: the edge-list view of the spec example, via the claim
instantiated on sSym: exactly 2 edges are produced, the pair (0,1)
followed by the pair (2,3), in ascending storage-index order. -/
theorem claim_C7_witness :
    retrieveEdgeList sSym (fun _ => (0, 0)) = some (elRun sSym (fun _ => (0, 0))) ∧
    (elRun sSym (fun _ => (0, 0))).1 = 2 ∧
    (elRun sSym (fun _ => (0, 0))).2 0 = (0, 1) ∧
    (elRun sSym (fun _ => (0, 0))).2 1 = (2, 3) := by
  obtain ⟨hsome, hlen, hmem⟩ := claim_C7 sSym (fun _ => (0, 0)) rfl
  refine ⟨hsome, ?_, ?_, ?_⟩
  · rw [hlen, sSym_S]
    decide
  · rw [hmem 0 (by rw [sSym_S]; decide), sSym_S]
    decide
  · rw [hmem 1 (by rw [sSym_S]; decide), sSym_S]
    decide

end PlumedAdjmat
